import Mathlib

/-!
Verification of the array-backed segment tree in `src/segment_tree.rs`
of `baku1101/competitive-rs`.

The tree stores a flat vector `v` of `2*n - 1` monoid elements where
`n = len.next_power_of_two()`; index `0` is the root and the children of
node `ix` live at `2*ix+1` and `2*ix+2`.  Rust panics (out-of-bounds
indexing, failed `assert!`) are modelled by `Option`: `none` is a panic
and a panicking operation commits no mutation.  Machine integers are
modelled by `Nat`; `usize` subtraction only occurs in the source where
it cannot underflow, matching Nat truncated subtraction.
-/

/-- Modelled from the spec: the `Monoid` trait of the missing `src/monoid.rs`
(§4.1 of the spec): an identity element `mempty` and a binary combine
`mappend`.  The tree is generic over any such structure. -/
structure MonoidOps (T : Type) where
  mempty : T
  mappend : T → T → T

namespace MonoidOps

variable {T : Type}

/-- Modelled from the spec: the monoid laws that a lawful instance must
satisfy (identity on both sides, associativity).  The code never checks
them; theorems that need them take them as a hypothesis. -/
structure Lawful (M : MonoidOps T) : Prop where
  empty_append : ∀ x, M.mappend M.mempty x = x
  append_empty : ∀ x, M.mappend x M.mempty = x
  append_assoc : ∀ a b c, M.mappend (M.mappend a b) c = M.mappend a (M.mappend b c)

/-- Modelled from the spec: `Monoid::mconcat`, the left-to-right fold of a
sequence through `mappend`, seeded with `mempty`. -/
def mconcat (M : MonoidOps T) (xs : List T) : T :=
  xs.foldl M.mappend M.mempty

end MonoidOps

/-- The sum-under-addition monoid on `Nat`, mirroring the stock `Sum`
instance used by the test in `segment_tree.rs`. -/
def natSum : MonoidOps Nat :=
  { mempty := 0, mappend := Nat.add }

/-- `natSum` satisfies the monoid laws. -/
theorem natSum_lawful : natSum.Lawful :=
  { empty_append := Nat.zero_add
    append_empty := Nat.add_zero
    append_assoc := Nat.add_assoc }

/-- `SegmentTree<T>`: logical length `len` and flat storage `v`
(the Rust field is also called `v`). -/
structure SegmentTree (T : Type) where
  len : Nat
  v : List T

namespace SegmentTree

variable {T : Type}

/-- The loop `for i in 0..s.len() { v[n - 1 + i] = s[i].clone().into(); }`
in `SegmentTree::init`, started at `ofs = n - 1`. -/
def writeLeaves : List T → Nat → List T → List T
  | v, _, [] => v
  | v, ofs, x :: xs => writeLeaves (v.set ofs x) (ofs + 1) xs

/-- One level of the build loop in `SegmentTree::init`:
`for i in 0..l { let ix = ofs + i; v[ix] = T::mappend(&v[ix*2+1], &v[ix*2+2]); }`,
unrolled with `ofs` advancing and the remaining count decreasing. -/
def buildLevel (M : MonoidOps T) : List T → Nat → Nat → List T
  | v, _, 0 => v
  | v, ofs, cnt + 1 =>
    buildLevel M
      (v.set ofs (M.mappend (v.getD (ofs * 2 + 1) M.mempty) (v.getD (ofs * 2 + 2) M.mempty)))
      (ofs + 1) cnt

/-- The outer `while l > 0` build loop of `SegmentTree::init`: process one
level, then `l /= 2; ofs -= l;`. -/
def buildLoop (M : MonoidOps T) (v : List T) (l ofs : Nat) : List T :=
  if l = 0 then v
  else buildLoop M (buildLevel M v ofs l) (l / 2) (ofs - l / 2)
termination_by l
decreasing_by exact Nat.div_lt_self (Nat.pos_of_ne_zero (by assumption)) (by decide)

/-- `SegmentTree::init`: allocate `2*n - 1` copies of `mempty` with
`n = len.next_power_of_two()`, write the initial values into the leaf
block starting at `n - 1`, then fold every level bottom-up. -/
def init (M : MonoidOps T) (len : Nat) (s : List T) : SegmentTree T :=
  let n := len.nextPowerOfTwo
  let v0 := List.replicate (2 * n - 1) M.mempty
  let v1 := writeLeaves v0 (n - 1) s
  { len := len, v := buildLoop M v1 (n / 2) (n - 1 - n / 2) }

/-- `SegmentTree::new(n)`: an empty tree of logical length `n`. -/
def new (M : MonoidOps T) (n : Nat) : SegmentTree T :=
  init M n []

/-- `SegmentTree::from_slice(s)`: logical length is `s.len()`. -/
def from_slice (M : MonoidOps T) (s : List T) : SegmentTree T :=
  init M s.length s

/-- `SegmentTree::get(i)`: read `self.v[n - 1 + i]` with
`n = (self.v.len() + 1) / 2`; an out-of-bounds index panics (`none`). -/
def get (M : MonoidOps T) (st : SegmentTree T) (i : Nat) : Option T :=
  let n := (st.v.length + 1) / 2
  if n - 1 + i < st.v.length then some (st.v.getD (n - 1 + i) M.mempty) else none

/-- The `while cur > 0` loop of `SegmentTree::set`: move to the parent
`(cur - 1) / 2` and recompute it from its two children. -/
def setLoop (M : MonoidOps T) (v : List T) (cur : Nat) : List T :=
  if cur = 0 then v
  else
    let c := (cur - 1) / 2
    setLoop M (v.set c (M.mappend (v.getD (c * 2 + 1) M.mempty) (v.getD (c * 2 + 2) M.mempty))) c
termination_by cur
decreasing_by
  exact Nat.lt_of_le_of_lt (Nat.div_le_self _ _)
    (Nat.sub_lt (Nat.pos_of_ne_zero (by assumption)) (by decide))

/-- `SegmentTree::set(i, v)`: write the leaf `n - 1 + i`, then walk to the
root recomputing each ancestor.  The initial write panics (`none`) when
`n - 1 + i` is out of bounds, before any mutation is committed. -/
def set (M : MonoidOps T) (st : SegmentTree T) (i : Nat) (x : T) : Option (SegmentTree T) :=
  let n := (st.v.length + 1) / 2
  if n - 1 + i < st.v.length then
    some { len := st.len, v := setLoop M (st.v.set (n - 1 + i) x) (n - 1 + i) }
  else none

/-- `SegmentTree::mappend(i, v)` (called `combine_at` in the spec):
`self.set(i, T::mappend(&self.get(i), &v.into()))`.  The `get` runs first,
so an out-of-bounds index panics before any mutation. -/
def mappend (M : MonoidOps T) (st : SegmentTree T) (i : Nat) (x : T) : Option (SegmentTree T) :=
  match get M st i with
  | none => none
  | some p => set M st i (M.mappend p x)

/-- The recursive helper `SegmentTree::q(ix, span, l, r)`.  The Rust
recursion has no structural measure usable on garbage arguments, so it
carries a fuel parameter; `query` passes enough fuel that the fuel-0
branch is unreachable for arguments satisfying the public preconditions
(this is part of claim C10). -/
def q (M : MonoidOps T) (st : SegmentTree T) : Nat → Nat → Nat → Nat → Nat → T
  | 0, _, _, _, _ => M.mempty
  | fuel + 1, ix, span, l, r =>
    if l = r then M.mempty
    else if r - l = span then st.v.getD ix M.mempty
    else
      let m := span / 2
      M.mappend (q M st fuel (ix * 2 + 1) m (min l m) (min r m))
        (q M st fuel (ix * 2 + 2) m (max l m - m) (max r m - m))

/-- `SegmentTree::query(l, r)`: `assert!(l <= r); assert!(r <= self.len);`
then `self.q(0, n, l, r)` with `n = (self.v.len() + 1) / 2`.  A failed
assertion is a panic (`none`). -/
def query (M : MonoidOps T) (st : SegmentTree T) (l r : Nat) : Option T :=
  if l ≤ r ∧ r ≤ st.len then
    let n := (st.v.length + 1) / 2
    some (q M st n 0 n l r)
  else none

/-- Bounds-checking shadow of `q`: `true` iff the recursion terminates
within the given fuel and every storage read `self.v[ix]` it performs is
in bounds. -/
def qSafe (st : SegmentTree T) : Nat → Nat → Nat → Nat → Nat → Bool
  | 0, _, _, _, _ => false
  | fuel + 1, ix, span, l, r =>
    if l = r then true
    else if r - l = span then decide (ix < st.v.length)
    else
      let m := span / 2
      qSafe st fuel (ix * 2 + 1) m (min l m) (min r m) &&
        qSafe st fuel (ix * 2 + 2) m (max l m - m) (max r m - m)

/-- The list of leaf values of the subtree of height `k` rooted at storage
index `ix`, left to right (a specification device, not source code). -/
def leavesL (v : List T) (d : T) : Nat → Nat → List T
  | 0, ix => [v.getD ix d]
  | k + 1, ix => leavesL v d k (ix * 2 + 1) ++ leavesL v d k (ix * 2 + 2)

/-- The tree-consistency equation of the spec at one internal node `ix`:
`storage[ix] == mappend(storage[2*ix+1], storage[2*ix+2])`. -/
def consAt (M : MonoidOps T) (v : List T) (ix : Nat) : Prop :=
  v.getD ix M.mempty = M.mappend (v.getD (ix * 2 + 1) M.mempty) (v.getD (ix * 2 + 2) M.mempty)

/-- The tree-consistency invariant: every internal node (one whose right
child index is still inside the storage) satisfies `consAt`. -/
def consistent (M : MonoidOps T) (v : List T) : Prop :=
  ∀ ix, ix * 2 + 2 < v.length → consAt M v ix

/-- `isAnc ix cur`: storage index `ix` is a strict ancestor of `cur` under
the parent map `cur ↦ (cur - 1) / 2` (the walk performed by `set`). -/
def isAnc (ix : Nat) (cur : Nat) : Prop :=
  if cur = 0 then False
  else ix = (cur - 1) / 2 ∨ isAnc ix ((cur - 1) / 2)
termination_by cur
decreasing_by
  exact Nat.lt_of_le_of_lt (Nat.div_le_self _ _)
    (Nat.sub_lt (Nat.pos_of_ne_zero (by assumption)) (by decide))

/-- Trees reachable through the public API: a constructor (`new` or
`from_slice`) followed by any sequence of successful (non-panicking)
`set` / `mappend` calls. -/
inductive Reachable (M : MonoidOps T) : SegmentTree T → Prop where
  | mk_new : ∀ n, Reachable M (new M n)
  | mk_slice : ∀ s, Reachable M (from_slice M s)
  | mk_set : ∀ st st' i x, Reachable M st → set M st i x = some st' → Reachable M st'
  | mk_app : ∀ st st' i x, Reachable M st → mappend M st i x = some st' → Reachable M st'

/-- Trees reachable through the public API when every mutating call keeps
its index inside the logical length (`i < len`), the discipline the spec
documents as the caller contract. -/
inductive ReachableLt (M : MonoidOps T) : SegmentTree T → Prop where
  | mk_new : ∀ n, ReachableLt M (new M n)
  | mk_slice : ∀ s, ReachableLt M (from_slice M s)
  | mk_set : ∀ st st' i x, ReachableLt M st → i < st.len → set M st i x = some st' →
      ReachableLt M st'
  | mk_app : ∀ st st' i x, ReachableLt M st → i < st.len → mappend M st i x = some st' →
      ReachableLt M st'

end SegmentTree

/-- The contiguous slice `s[l..r]` of a sequence, as a list. -/
def seg {T : Type} (s : List T) (l r : Nat) : List T :=
  (s.drop l).take (r - l)

section Helpers

variable {T : Type}

lemma getD_set_self (v : List T) (i : Nat) (x d : T) (h : i < v.length) :
    (v.set i x).getD i d = x := by
  simp [List.getD_eq_getElem?_getD, List.getElem?_set_self h]

lemma getD_set_ne (v : List T) {i j : Nat} (x d : T) (h : i ≠ j) :
    (v.set i x).getD j d = v.getD j d := by
  simp [List.getD_eq_getElem?_getD, List.getElem?_set_ne h]

lemma getD_replicate (n i : Nat) (d : T) : (List.replicate n d).getD i d = d := by
  rcases Nat.lt_or_ge i n with h | h
  · simp [List.getD_eq_getElem?_getD, List.getElem?_replicate, h]
  · have hlen : (List.replicate n d).length ≤ i := by simpa using h
    simp [List.getD_eq_getElem?_getD, List.getElem?_eq_none hlen]

lemma getD_eq_getElem (v : List T) (i : Nat) (d : T) (h : i < v.length) :
    v.getD i d = v.get ⟨i, h⟩ := by
  simp [List.getD_eq_getElem?_getD, List.getElem?_eq_getElem h]

lemma getD_of_length_le (v : List T) (i : Nat) (d : T) (h : v.length ≤ i) :
    v.getD i d = d := by
  simp [List.getD_eq_getElem?_getD, List.getElem?_eq_none h]

lemma nextPowerOfTwo_ge (n : Nat) : n ≤ n.nextPowerOfTwo := by
  suffices h : ∀ m power hp, n - power = m → n ≤ Nat.nextPowerOfTwo.go n power hp from
    h _ 1 (by decide) rfl
  intro m
  induction m using Nat.strong_induction_on with
  | _ m ih =>
    intro power hp hm
    unfold Nat.nextPowerOfTwo.go
    split
    · exact ih (n - power * 2) (hm ▸ Nat.nextPowerOfTwo_dec hp (by assumption)) _ _ rfl
    · omega

end Helpers

namespace MonoidOps

variable {T : Type} {M : MonoidOps T}

lemma mconcat_nil : M.mconcat [] = M.mempty := rfl

lemma foldl_eq_mappend (hM : M.Lawful) (xs : List T) :
    ∀ x : T, xs.foldl M.mappend x = M.mappend x (M.mconcat xs) := by
  induction xs with
  | nil => intro x; simp [mconcat, hM.append_empty]
  | cons y ys ih =>
    intro x
    show (ys.foldl M.mappend (M.mappend x y)) = _
    rw [ih (M.mappend x y), hM.append_assoc]
    have : M.mconcat (y :: ys) = M.mappend y (M.mconcat ys) := by
      show ys.foldl M.mappend (M.mappend M.mempty y) = _
      rw [hM.empty_append, ih y]
    rw [this]

lemma mconcat_singleton (hM : M.Lawful) (x : T) : M.mconcat [x] = x := by
  show M.mappend M.mempty x = x
  exact hM.empty_append x

lemma mconcat_append (hM : M.Lawful) (a b : List T) :
    M.mconcat (a ++ b) = M.mappend (M.mconcat a) (M.mconcat b) := by
  show (a ++ b).foldl M.mappend M.mempty = _
  rw [List.foldl_append, foldl_eq_mappend hM]
  rfl

end MonoidOps

namespace SegmentTree

variable {T : Type} {M : MonoidOps T}

lemma writeLeaves_length (s : List T) : ∀ (v : List T) (ofs : Nat),
    (writeLeaves v ofs s).length = v.length := by
  induction s with
  | nil => intro v ofs; rfl
  | cons x xs ih => intro v ofs; simp [writeLeaves, ih, List.length_set]

lemma writeLeaves_getD_lt (s : List T) : ∀ (v : List T) (ofs idx : Nat) (d : T), idx < ofs →
    (writeLeaves v ofs s).getD idx d = v.getD idx d := by
  induction s with
  | nil => intro v ofs idx d _; rfl
  | cons x xs ih =>
    intro v ofs idx d h
    show (writeLeaves (v.set ofs x) (ofs + 1) xs).getD idx d = _
    rw [ih _ _ _ _ (by omega), getD_set_ne _ _ _ (by omega)]

lemma writeLeaves_getD_ge (s : List T) : ∀ (v : List T) (ofs idx : Nat) (d : T),
    ofs + s.length ≤ idx →
    (writeLeaves v ofs s).getD idx d = v.getD idx d := by
  induction s with
  | nil => intro v ofs idx d _; rfl
  | cons x xs ih =>
    intro v ofs idx d h
    simp only [List.length_cons] at h
    show (writeLeaves (v.set ofs x) (ofs + 1) xs).getD idx d = _
    rw [ih _ _ _ _ (by omega), getD_set_ne _ _ _ (by omega)]

lemma writeLeaves_getD_in (s : List T) : ∀ (v : List T) (ofs j : Nat) (d : T), j < s.length →
    ofs + s.length ≤ v.length →
    (writeLeaves v ofs s).getD (ofs + j) d = s.getD j d := by
  induction s with
  | nil => intro v ofs j d h _; simp at h
  | cons x xs ih =>
    intro v ofs j d hj hlen
    simp only [List.length_cons] at hj hlen
    show (writeLeaves (v.set ofs x) (ofs + 1) xs).getD (ofs + j) d = _
    match j with
    | 0 =>
      rw [writeLeaves_getD_lt _ _ _ _ _ (by omega)]
      simpa using getD_set_self v ofs x d (by omega)
    | j' + 1 =>
      have : ofs + (j' + 1) = (ofs + 1) + j' := by omega
      rw [this, ih _ _ _ _ (by omega) (by simp [List.length_set]; omega)]
      simp

lemma buildLevel_length (cnt : Nat) : ∀ (v : List T) (ofs : Nat),
    (buildLevel M v ofs cnt).length = v.length := by
  induction cnt with
  | zero => intro v ofs; rfl
  | succ c ih => intro v ofs; show (buildLevel M _ (ofs + 1) c).length = _; simp [ih]

lemma buildLevel_getD_out (cnt : Nat) : ∀ (v : List T) (ofs idx : Nat),
    idx < ofs ∨ ofs + cnt ≤ idx →
    (buildLevel M v ofs cnt).getD idx M.mempty = v.getD idx M.mempty := by
  induction cnt with
  | zero => intro v ofs idx _; rfl
  | succ c ih =>
    intro v ofs idx h
    show (buildLevel M _ (ofs + 1) c).getD idx M.mempty = _
    rw [ih _ _ _ (by omega), getD_set_ne _ _ _ (by omega)]

lemma buildLevel_getD_in (cnt : Nat) : ∀ (v : List T) (ofs i : Nat), i < cnt →
    ofs + cnt ≤ v.length →
    (buildLevel M v ofs cnt).getD (ofs + i) M.mempty
      = M.mappend (v.getD ((ofs + i) * 2 + 1) M.mempty) (v.getD ((ofs + i) * 2 + 2) M.mempty) := by
  induction cnt with
  | zero => intro v ofs i h _; omega
  | succ c ih =>
    intro v ofs i hi hlen
    show (buildLevel M _ (ofs + 1) c).getD (ofs + i) M.mempty = _
    match i with
    | 0 =>
      rw [buildLevel_getD_out _ _ _ _ (by omega)]
      simpa using getD_set_self v ofs _ M.mempty (by omega)
    | i' + 1 =>
      have harg : ofs + (i' + 1) = (ofs + 1) + i' := by omega
      rw [harg, ih _ _ _ (by omega) (by simp [List.length_set]; omega)]
      rw [getD_set_ne _ _ _ (by omega), getD_set_ne _ _ _ (by omega)]

lemma buildLoop_length : ∀ (l : Nat) (v : List T) (ofs : Nat),
    (buildLoop M v l ofs).length = v.length := by
  intro l
  induction l using Nat.strong_induction_on with
  | _ l ih =>
    intro v ofs
    rw [buildLoop]
    split
    · rfl
    · rw [ih _ (Nat.div_lt_self (Nat.pos_of_ne_zero (by assumption)) (by decide)),
        buildLevel_length]

end SegmentTree

namespace SegmentTree

variable {T : Type} {M : MonoidOps T}

lemma buildLoop_spec (j : Nat) : ∀ v : List T,
    2 * 2 ^ j - 1 ≤ v.length →
    (∀ ix, 2 * 2 ^ j - 1 ≤ ix → ix * 2 + 2 < v.length → consAt M v ix) →
    (∀ idx, 2 * 2 ^ j - 1 ≤ idx →
        (buildLoop M v (2 ^ j) (2 ^ j - 1)).getD idx M.mempty = v.getD idx M.mempty) ∧
      (∀ ix, ix * 2 + 2 < v.length → consAt M (buildLoop M v (2 ^ j) (2 ^ j - 1)) ix) := by
  induction j with
  | zero =>
    intro v hlen hcons
    have hunf : buildLoop M v (2 ^ 0) (2 ^ 0 - 1)
        = v.set 0 (M.mappend (v.getD 1 M.mempty) (v.getD 2 M.mempty)) := by
      rw [buildLoop, if_neg (by norm_num), buildLoop, if_pos (by norm_num)]
      rfl
    constructor
    · intro idx hidx
      rw [hunf, getD_set_ne _ _ _ (by omega)]
    · intro ix hix
      by_cases h0 : ix = 0
      · subst h0
        show (buildLoop M v (2 ^ 0) (2 ^ 0 - 1)).getD 0 M.mempty = _
        rw [hunf, getD_set_self _ _ _ _ (by omega), getD_set_ne _ _ _ (by omega),
          getD_set_ne _ _ _ (by omega)]
      · have hc := hcons ix (by norm_num; omega) hix
        unfold consAt at hc ⊢
        rw [hunf, getD_set_ne _ _ _ (by omega), getD_set_ne _ _ _ (by omega),
          getD_set_ne _ _ _ (by omega)]
        exact hc
  | succ j ih =>
    intro v hlen hcons
    have hpow : 2 ^ (j + 1) = 2 * 2 ^ j := by rw [Nat.pow_succ]; ring
    have hp : 0 < 2 ^ j := Nat.pow_pos (by norm_num)
    have hunf : buildLoop M v (2 ^ (j + 1)) (2 ^ (j + 1) - 1)
        = buildLoop M (buildLevel M v (2 ^ (j + 1) - 1) (2 ^ (j + 1))) (2 ^ j) (2 ^ j - 1) := by
      rw [buildLoop, if_neg (by omega)]
      have e1 : 2 ^ (j + 1) / 2 = 2 ^ j := by omega
      rw [e1]
      have e2 : 2 ^ (j + 1) - 1 - 2 ^ j = 2 ^ j - 1 := by omega
      rw [e2]
    have hAlen : (buildLevel M v (2 ^ (j + 1) - 1) (2 ^ (j + 1))).length = v.length :=
      buildLevel_length _ _ _
    have hconsA : ∀ ix, 2 * 2 ^ j - 1 ≤ ix →
        ix * 2 + 2 < (buildLevel M v (2 ^ (j + 1) - 1) (2 ^ (j + 1))).length →
        consAt M (buildLevel M v (2 ^ (j + 1) - 1) (2 ^ (j + 1))) ix := by
      intro ix hge hint
      rw [hAlen] at hint
      unfold consAt
      by_cases hcase : ix < (2 ^ (j + 1) - 1) + 2 ^ (j + 1)
      · have hofslen : (2 ^ (j + 1) - 1) + 2 ^ (j + 1) ≤ v.length := by omega
        have hin := buildLevel_getD_in (M := M) (2 ^ (j + 1)) v (2 ^ (j + 1) - 1)
          (ix - (2 ^ (j + 1) - 1)) (by omega) hofslen
        rw [show (2 ^ (j + 1) - 1) + (ix - (2 ^ (j + 1) - 1)) = ix by omega] at hin
        rw [hin, buildLevel_getD_out _ _ _ _ (by omega), buildLevel_getD_out _ _ _ _ (by omega)]
      · have hc := hcons ix (by omega) hint
        unfold consAt at hc
        rw [buildLevel_getD_out _ _ _ _ (by omega), buildLevel_getD_out _ _ _ _ (by omega),
          buildLevel_getD_out _ _ _ _ (by omega)]
        exact hc
    obtain ⟨ihP, ihC⟩ := ih (buildLevel M v (2 ^ (j + 1) - 1) (2 ^ (j + 1)))
      (by rw [hAlen]; omega) hconsA
    constructor
    · intro idx hidx
      rw [hunf, ihP idx (by omega), buildLevel_getD_out _ _ _ _ (by omega)]
    · intro ix hint
      rw [hunf]
      exact ihC ix (by rw [hAlen]; omega)

end SegmentTree

namespace SegmentTree

variable {T : Type} {M : MonoidOps T}

lemma buildLoop_zero (v : List T) (ofs : Nat) : buildLoop M v 0 ofs = v := by
  rw [buildLoop]
  simp

lemma init_len (len : Nat) (s : List T) : (init M len s).len = len := rfl

lemma init_v_eq (len : Nat) (s : List T) :
    (init M len s).v
      = buildLoop M
          (writeLeaves (List.replicate (2 * len.nextPowerOfTwo - 1) M.mempty)
            (len.nextPowerOfTwo - 1) s)
          (len.nextPowerOfTwo / 2) (len.nextPowerOfTwo - 1 - len.nextPowerOfTwo / 2) := rfl

lemma init_v_length (len : Nat) (s : List T) :
    (init M len s).v.length = 2 * len.nextPowerOfTwo - 1 := by
  rw [init_v_eq, buildLoop_length, writeLeaves_length, List.length_replicate]

lemma init_getD_leaf (len : Nat) (s : List T) (hs : s.length ≤ len.nextPowerOfTwo) (j : Nat) :
    (init M len s).v.getD (len.nextPowerOfTwo - 1 + j) M.mempty
      = if j < s.length then s.getD j M.mempty else M.mempty := by
  obtain ⟨K, hK⟩ := Nat.isPowerOfTwo_nextPowerOfTwo len
  have hn1 : 1 ≤ len.nextPowerOfTwo := by
    rw [hK]; exact Nat.pow_pos (by norm_num)
  have hv1 : ∀ j : Nat,
      (writeLeaves (List.replicate (2 * len.nextPowerOfTwo - 1) M.mempty)
          (len.nextPowerOfTwo - 1) s).getD (len.nextPowerOfTwo - 1 + j) M.mempty
        = if j < s.length then s.getD j M.mempty else M.mempty := by
    intro j
    by_cases hj : j < s.length
    · rw [if_pos hj]
      exact writeLeaves_getD_in s _ _ _ _ hj (by simp [List.length_replicate]; omega)
    · rw [if_neg hj]
      rw [writeLeaves_getD_ge s _ _ _ _ (by omega), getD_replicate]
  match K, hK with
  | 0, hK =>
    have h1 : len.nextPowerOfTwo = 1 := by rw [hK]
    rw [init_v_eq, h1]
    norm_num
    rw [buildLoop_zero]
    have := hv1 j
    rw [h1] at this
    norm_num at this
    exact this
  | K' + 1, hK =>
    have hpow : 2 ^ (K' + 1) = 2 * 2 ^ K' := by rw [Nat.pow_succ]; ring
    have hp : 0 < 2 ^ K' := Nat.pow_pos (by norm_num)
    have hdiv : len.nextPowerOfTwo / 2 = 2 ^ K' := by rw [hK]; omega
    have hofs : len.nextPowerOfTwo - 1 - 2 ^ K' = 2 ^ K' - 1 := by
      rw [hK]; omega
    have hspec := buildLoop_spec (M := M) K'
      (writeLeaves (List.replicate (2 * len.nextPowerOfTwo - 1) M.mempty)
        (len.nextPowerOfTwo - 1) s)
      (by simp [writeLeaves_length, List.length_replicate]; rw [hK]; omega)
      (by
        intro ix hge hlt
        simp [writeLeaves_length, List.length_replicate] at hlt
        rw [hK] at hlt
        omega)
    rw [init_v_eq, hdiv, hofs]
    rw [hspec.1 (len.nextPowerOfTwo - 1 + j) (by rw [hK]; omega)]
    exact hv1 j

lemma init_consistent (len : Nat) (s : List T) : consistent M (init M len s).v := by
  obtain ⟨K, hK⟩ := Nat.isPowerOfTwo_nextPowerOfTwo len
  match K, hK with
  | 0, hK =>
    intro ix hix
    rw [init_v_length, hK] at hix
    norm_num at hix
  | K' + 1, hK =>
    have hpow : 2 ^ (K' + 1) = 2 * 2 ^ K' := by rw [Nat.pow_succ]; ring
    have hp : 0 < 2 ^ K' := Nat.pow_pos (by norm_num)
    have hdiv : len.nextPowerOfTwo / 2 = 2 ^ K' := by rw [hK]; omega
    have hofs : len.nextPowerOfTwo - 1 - 2 ^ K' = 2 ^ K' - 1 := by
      rw [hK]; omega
    have hspec := buildLoop_spec (M := M) K'
      (writeLeaves (List.replicate (2 * len.nextPowerOfTwo - 1) M.mempty)
        (len.nextPowerOfTwo - 1) s)
      (by simp [writeLeaves_length, List.length_replicate]; rw [hK]; omega)
      (by
        intro ix hge hlt
        simp [writeLeaves_length, List.length_replicate] at hlt
        rw [hK] at hlt
        omega)
    intro ix hix
    rw [init_v_length] at hix
    have := hspec.2 ix (by simp [writeLeaves_length, List.length_replicate]; omega)
    rw [init_v_eq, hdiv, hofs]
    exact this

end SegmentTree

namespace SegmentTree

variable {T : Type} {M : MonoidOps T}

lemma leavesL_length (v : List T) (d : T) : ∀ (k ix : Nat), (leavesL v d k ix).length = 2 ^ k := by
  intro k
  induction k with
  | zero => intro ix; rfl
  | succ k ih =>
    intro ix
    show (leavesL v d k (ix * 2 + 1) ++ leavesL v d k (ix * 2 + 2)).length = _
    simp [ih, Nat.pow_succ]
    ring

lemma leavesL_eq_map (v : List T) (d : T) : ∀ (k ix : Nat),
    leavesL v d k ix = (List.range (2 ^ k)).map (fun j => v.getD ((ix + 1) * 2 ^ k - 1 + j) d) := by
  intro k
  induction k with
  | zero =>
    intro ix
    show [v.getD ix d] = _
    have h1 : List.range (2 ^ 0) = [0] := rfl
    rw [h1]
    simp
  | succ k ih =>
    intro ix
    have hp : 0 < 2 ^ k := Nat.pow_pos (by norm_num)
    have hpow : 2 ^ (k + 1) = 2 ^ k + 2 ^ k := by rw [Nat.pow_succ]; ring
    show leavesL v d k (ix * 2 + 1) ++ leavesL v d k (ix * 2 + 2) = _
    rw [ih (ix * 2 + 1), ih (ix * 2 + 2), hpow, List.range_add, List.map_append, List.map_map]
    congr 1
    · apply List.map_congr_left
      intro a ha
      have harith : (ix * 2 + 1 + 1) * 2 ^ k - 1 + a = (ix + 1) * (2 ^ k + 2 ^ k) - 1 + a := by
        have : (ix * 2 + 1 + 1) * 2 ^ k = (ix + 1) * (2 ^ k + 2 ^ k) := by ring
        omega
      rw [harith]
    · apply List.map_congr_left
      intro a ha
      show v.getD ((ix * 2 + 2 + 1) * 2 ^ k - 1 + a) d = v.getD ((ix + 1) * (2 ^ k + 2 ^ k) - 1 + (2 ^ k + a)) d
      have harith : (ix * 2 + 2 + 1) * 2 ^ k - 1 + a = (ix + 1) * (2 ^ k + 2 ^ k) - 1 + (2 ^ k + a) := by
        have h1 : (ix * 2 + 2 + 1) * 2 ^ k = (ix + 1) * (2 ^ k + 2 ^ k) + 2 ^ k := by ring
        have h2 : 0 < (ix + 1) * (2 ^ k + 2 ^ k) := Nat.mul_pos (by omega) (by omega)
        omega
      rw [harith]

lemma nodeVal (hM : M.Lawful) (v : List T) (K : Nat) (hlen : v.length = 2 * 2 ^ K - 1)
    (hcons : consistent M v) : ∀ (k ix : Nat), (ix + 2) * 2 ^ k ≤ 2 * 2 ^ K →
    v.getD ix M.mempty = M.mconcat (leavesL v M.mempty k ix) := by
  intro k
  induction k with
  | zero =>
    intro ix _
    show _ = M.mconcat [v.getD ix M.mempty]
    rw [MonoidOps.mconcat_singleton hM]
  | succ k ih =>
    intro ix hb
    have hp : 0 < 2 ^ k := Nat.pow_pos (by norm_num)
    have hpow : 2 ^ (k + 1) = 2 * 2 ^ k := by rw [Nat.pow_succ]; ring
    have hK0 : 0 < 2 ^ K := Nat.pow_pos (by norm_num)
    have h24 : (ix + 2) * 2 ≤ 2 * 2 ^ K := by
      calc (ix + 2) * 2 ≤ (ix + 2) * 2 ^ (k + 1) := by
            have h2le : (2 : Nat) ≤ 2 ^ (k + 1) := by
              calc (2 : Nat) = 2 ^ 1 := rfl
              _ ≤ 2 ^ (k + 1) := Nat.pow_le_pow_right (by norm_num) (by omega)
            exact Nat.mul_le_mul_left _ h2le
      _ ≤ 2 * 2 ^ K := hb
    have hint : ix * 2 + 2 < v.length := by
      rw [hlen]
      omega
    have hc1 : (ix * 2 + 1 + 2) * 2 ^ k ≤ 2 * 2 ^ K := by
      calc (ix * 2 + 1 + 2) * 2 ^ k ≤ (ix * 2 + 4) * 2 ^ k := Nat.mul_le_mul_right _ (by omega)
      _ = (ix + 2) * 2 ^ (k + 1) := by rw [hpow]; ring
      _ ≤ 2 * 2 ^ K := hb
    have hc2 : (ix * 2 + 2 + 2) * 2 ^ k ≤ 2 * 2 ^ K := by
      calc (ix * 2 + 2 + 2) * 2 ^ k = (ix + 2) * 2 ^ (k + 1) := by rw [hpow]; ring
      _ ≤ 2 * 2 ^ K := hb
    have hcx := hcons ix hint
    unfold consAt at hcx
    show v.getD ix M.mempty
        = M.mconcat (leavesL v M.mempty k (ix * 2 + 1) ++ leavesL v M.mempty k (ix * 2 + 2))
    rw [MonoidOps.mconcat_append hM, hcx]
    rw [ih (ix * 2 + 1) hc1, ih (ix * 2 + 2) hc2]

end SegmentTree

section SegLemmas

variable {T : Type}

lemma seg_nil_of_ge (xs : List T) (i : Nat) : seg xs i i = [] := by
  simp [seg]

lemma seg_append (A B : List T) (m l r : Nat) (hA : A.length = m) (hlr : l ≤ r) :
    seg (A ++ B) l r = seg A (min l m) (min r m) ++ seg B (max l m - m) (max r m - m) := by
  unfold seg
  rw [List.drop_append_eq_append_drop, List.take_append_eq_append_take]
  have hdl : (List.drop l A).length = m - l := by rw [List.length_drop, hA]
  congr 1
  · rcases Nat.le_total r m with h | h
    · rw [Nat.min_eq_left h, Nat.min_eq_left (le_trans hlr h)]
    · rw [Nat.min_eq_right h]
      rcases Nat.le_total l m with h2 | h2
      · rw [Nat.min_eq_left h2]
        rw [List.take_of_length_le (by rw [hdl]; omega),
          List.take_of_length_le (by rw [List.length_drop, hA])]
      · rw [Nat.min_eq_right h2]
        rw [List.drop_eq_nil_of_le (by omega), List.drop_eq_nil_of_le (by omega)]
        simp
  · rw [hdl, hA]
    rcases Nat.le_total l m with h2 | h2
    · rw [Nat.max_eq_right h2]
      have e0 : l - m = 0 := by omega
      rw [e0, Nat.sub_self]
      have e1 : r - l - (m - l) = max r m - m - 0 := by
        rcases Nat.le_total r m with h3 | h3
        · rw [Nat.max_eq_right h3]; omega
        · rw [Nat.max_eq_left h3]; omega
      rw [e1]
    · rw [Nat.max_eq_left h2, Nat.max_eq_left (le_trans h2 hlr)]
      have e2 : r - l - (m - l) = r - m - (l - m) := by omega
      rw [e2]

end SegLemmas

namespace SegmentTree

variable {T : Type} {M : MonoidOps T}

lemma leavesL_succ (v : List T) (d : T) (k ix : Nat) :
    leavesL v d (k + 1) ix = leavesL v d k (ix * 2 + 1) ++ leavesL v d k (ix * 2 + 2) := rfl

lemma q_spec (hM : M.Lawful) (st : SegmentTree T) (K : Nat)
    (hlen : st.v.length = 2 * 2 ^ K - 1) (hcons : consistent M st.v) :
    ∀ (k fuel ix l r : Nat), k < fuel → l ≤ r → r ≤ 2 ^ k →
      (ix + 2) * 2 ^ k ≤ 2 * 2 ^ K →
      q M st fuel ix (2 ^ k) l r = M.mconcat (seg (leavesL st.v M.mempty k ix) l r) := by
  intro k
  induction k with
  | zero =>
    intro fuel ix l r hfuel hlr hr hb
    cases fuel with
    | zero => omega
    | succ fuel =>
      have h20 : (2 : Nat) ^ 0 = 1 := rfl
      simp only [q]
      by_cases h1 : l = r
      · rw [if_pos h1, h1, seg_nil_of_ge, MonoidOps.mconcat_nil]
      · rw [if_neg h1]
        have hl0 : l = 0 := by rw [h20] at hr; omega
        have hr1 : r = 1 := by rw [h20] at hr; omega
        rw [if_pos (by rw [h20]; omega)]
        have hseg : seg (leavesL st.v M.mempty 0 ix) l r = [st.v.getD ix M.mempty] := by
          rw [hl0, hr1]
          show seg [st.v.getD ix M.mempty] 0 1 = _
          simp [seg]
        rw [hseg, MonoidOps.mconcat_singleton hM]
  | succ k ih =>
    intro fuel ix l r hfuel hlr hr hb
    cases fuel with
    | zero => omega
    | succ fuel =>
      have hp : 0 < 2 ^ k := Nat.pow_pos (by norm_num)
      have hpow : 2 ^ (k + 1) = 2 * 2 ^ k := by rw [Nat.pow_succ]; ring
      simp only [q]
      by_cases h1 : l = r
      · rw [if_pos h1, h1, seg_nil_of_ge, MonoidOps.mconcat_nil]
      · rw [if_neg h1]
        by_cases h2 : r - l = 2 ^ (k + 1)
        · rw [if_pos h2]
          have hl0 : l = 0 := by omega
          have hr2 : r = 2 ^ (k + 1) := by omega
          rw [nodeVal hM st.v K hlen hcons (k + 1) ix hb]
          have hseg : seg (leavesL st.v M.mempty (k + 1) ix) l r
              = leavesL st.v M.mempty (k + 1) ix := by
            rw [hl0, hr2]
            unfold seg
            rw [List.drop_zero, Nat.sub_zero,
              List.take_of_length_le (by rw [leavesL_length])]
          rw [hseg]
        · rw [if_neg h2]
          have hm : 2 ^ (k + 1) / 2 = 2 ^ k := by omega
          rw [hm]
          have hc1 : (ix * 2 + 1 + 2) * 2 ^ k ≤ 2 * 2 ^ K := by
            calc (ix * 2 + 1 + 2) * 2 ^ k ≤ (ix * 2 + 4) * 2 ^ k :=
                  Nat.mul_le_mul_right _ (by omega)
            _ = (ix + 2) * 2 ^ (k + 1) := by rw [hpow]; ring
            _ ≤ 2 * 2 ^ K := hb
          have hc2 : (ix * 2 + 2 + 2) * 2 ^ k ≤ 2 * 2 ^ K := by
            calc (ix * 2 + 2 + 2) * 2 ^ k = (ix + 2) * 2 ^ (k + 1) := by rw [hpow]; ring
            _ ≤ 2 * 2 ^ K := hb
          have hmaxr : max r (2 ^ k) ≤ 2 ^ (k + 1) := by
            apply Nat.max_le.mpr
            constructor
            · exact hr
            · omega
          rw [ih fuel (ix * 2 + 1) (min l (2 ^ k)) (min r (2 ^ k)) (by omega)
            (inf_le_inf_right _ hlr) (Nat.min_le_right _ _) hc1]
          rw [ih fuel (ix * 2 + 2) (max l (2 ^ k) - 2 ^ k) (max r (2 ^ k) - 2 ^ k) (by omega)
            (Nat.sub_le_sub_right (sup_le_sup_right hlr _) _) (by omega) hc2]
          rw [leavesL_succ,
            seg_append _ _ (2 ^ k) l r (leavesL_length st.v M.mempty k (ix * 2 + 1)) hlr,
            MonoidOps.mconcat_append hM]

end SegmentTree

section SegLemmas2

variable {T : Type}

lemma seg_append_left (s tail : List T) (l r : Nat) (hr : r ≤ s.length) :
    seg (s ++ tail) l r = seg s l r := by
  unfold seg
  rw [List.drop_append_eq_append_drop, List.take_append_eq_append_take]
  have h0 : (r - l) - (List.drop l s).length = 0 := by rw [List.length_drop]; omega
  rw [h0, List.take_zero, List.append_nil]

end SegLemmas2

namespace SegmentTree

variable {T : Type} {M : MonoidOps T}

lemma init_leavesL (len : Nat) (s : List T) (K : Nat) (hK : len.nextPowerOfTwo = 2 ^ K)
    (hs : s.length ≤ len.nextPowerOfTwo) :
    leavesL (init M len s).v M.mempty K 0
      = s ++ List.replicate (len.nextPowerOfTwo - s.length) M.mempty := by
  rw [leavesL_eq_map]
  apply List.ext_getElem
  · simp [List.length_map, List.length_range, List.length_replicate, hK]
    omega
  · intro i h1 h2
    rw [List.getElem_map, List.getElem_range]
    have e : (0 + 1) * 2 ^ K - 1 + i = len.nextPowerOfTwo - 1 + i := by
      rw [hK]; omega
    rw [e, init_getD_leaf len s hs i]
    by_cases hi : i < s.length
    · rw [if_pos hi, List.getElem_append_left hi]
      exact getD_eq_getElem s i M.mempty hi
    · rw [if_neg hi, List.getElem_append_right (by omega), List.getElem_replicate]

end SegmentTree

namespace SegmentTree

variable {T : Type} {M : MonoidOps T}

lemma setLoop_zero (v : List T) : setLoop M v 0 = v := by
  rw [setLoop]
  simp

lemma setLoop_length : ∀ (cur : Nat) (v : List T), (setLoop M v cur).length = v.length := by
  intro cur
  induction cur using Nat.strong_induction_on with
  | _ cur ih =>
    intro v
    by_cases h0 : cur = 0
    · rw [h0, setLoop_zero]
    · rw [setLoop, if_neg h0]
      rw [ih _ (by omega), List.length_set]

lemma setLoop_getD_ge : ∀ (cur : Nat) (v : List T) (idx : Nat) (d : T), cur ≤ 2 * idx →
    (setLoop M v cur).getD idx d = v.getD idx d := by
  intro cur
  induction cur using Nat.strong_induction_on with
  | _ cur ih =>
    intro v idx d h
    by_cases h0 : cur = 0
    · rw [h0, setLoop_zero]
    · rw [setLoop, if_neg h0]
      rw [ih _ (by omega) _ _ _ (by omega), getD_set_ne _ _ _ (by omega)]

lemma isAnc_zero (ix : Nat) : ¬ isAnc ix 0 := by
  rw [isAnc]
  simp

lemma isAnc_unfold (ix cur : Nat) (h : cur ≠ 0) :
    isAnc ix cur ↔ (ix = (cur - 1) / 2 ∨ isAnc ix ((cur - 1) / 2)) := by
  rw [isAnc, if_neg h]

lemma setLoop_consistent : ∀ (cur : Nat) (v : List T),
    (∀ ix, ix * 2 + 2 < v.length → ¬ isAnc ix cur → consAt M v ix) →
    ∀ ix, ix * 2 + 2 < (setLoop M v cur).length → consAt M (setLoop M v cur) ix := by
  intro cur
  induction cur using Nat.strong_induction_on with
  | _ cur ihs =>
    intro v hv ix hix
    by_cases h0 : cur = 0
    · subst h0
      rw [setLoop_zero] at hix ⊢
      exact hv ix hix (isAnc_zero ix)
    · rw [setLoop, if_neg h0] at hix ⊢
      apply ihs ((cur - 1) / 2) (by omega)
      · intro ix2 hix2 hanc2
        rw [List.length_set] at hix2
        by_cases hc : ix2 = (cur - 1) / 2
        · subst hc
          unfold consAt
          rw [getD_set_self _ _ _ _ (by omega), getD_set_ne _ _ _ (by omega),
            getD_set_ne _ _ _ (by omega)]
        · have hanc : ¬ isAnc ix2 cur := by
            intro hA
            rcases (isAnc_unfold ix2 cur h0).mp hA with h | h
            · exact hc h
            · exact hanc2 h
          have hcons := hv ix2 hix2 hanc
          have hne1 : (cur - 1) / 2 ≠ ix2 * 2 + 1 := by
            intro he
            apply hanc2
            rw [isAnc_unfold _ _ (by omega)]
            left
            omega
          have hne2 : (cur - 1) / 2 ≠ ix2 * 2 + 2 := by
            intro he
            apply hanc2
            rw [isAnc_unfold _ _ (by omega)]
            left
            omega
          unfold consAt at hcons ⊢
          rw [getD_set_ne _ _ _ (fun he => hc he.symm), getD_set_ne _ _ _ hne1,
            getD_set_ne _ _ _ hne2]
          exact hcons
      · exact hix

end SegmentTree

namespace SegmentTree

variable {T : Type} {M : MonoidOps T}

lemma get_eq_some (st : SegmentTree T) (K : Nat) (hlen : st.v.length = 2 * 2 ^ K - 1)
    (i : Nat) (hi : i < 2 ^ K) :
    get M st i = some (st.v.getD (2 ^ K - 1 + i) M.mempty) := by
  have hp : 0 < 2 ^ K := Nat.pow_pos (by norm_num)
  show (if (st.v.length + 1) / 2 - 1 + i < st.v.length
      then some (st.v.getD ((st.v.length + 1) / 2 - 1 + i) M.mempty) else none) = _
  rw [hlen, show (2 * 2 ^ K - 1 + 1) / 2 = 2 ^ K from by omega, if_pos (by omega)]

lemma get_eq_none (st : SegmentTree T) (K : Nat) (hlen : st.v.length = 2 * 2 ^ K - 1)
    (i : Nat) (hi : 2 ^ K ≤ i) :
    get M st i = none := by
  have hp : 0 < 2 ^ K := Nat.pow_pos (by norm_num)
  show (if (st.v.length + 1) / 2 - 1 + i < st.v.length
      then some (st.v.getD ((st.v.length + 1) / 2 - 1 + i) M.mempty) else none) = _
  rw [hlen, show (2 * 2 ^ K - 1 + 1) / 2 = 2 ^ K from by omega, if_neg (by omega)]

lemma set_eq_some (st : SegmentTree T) (K : Nat) (hlen : st.v.length = 2 * 2 ^ K - 1)
    (i : Nat) (hi : i < 2 ^ K) (x : T) :
    set M st i x
      = some ⟨st.len, setLoop M (st.v.set (2 ^ K - 1 + i) x) (2 ^ K - 1 + i)⟩ := by
  have hp : 0 < 2 ^ K := Nat.pow_pos (by norm_num)
  show (if (st.v.length + 1) / 2 - 1 + i < st.v.length
      then some (SegmentTree.mk st.len (setLoop M (st.v.set ((st.v.length + 1) / 2 - 1 + i) x)
        ((st.v.length + 1) / 2 - 1 + i)))
      else none) = _
  rw [hlen, show (2 * 2 ^ K - 1 + 1) / 2 = 2 ^ K from by omega, if_pos (by omega)]

lemma set_eq_none (st : SegmentTree T) (K : Nat) (hlen : st.v.length = 2 * 2 ^ K - 1)
    (i : Nat) (hi : 2 ^ K ≤ i) (x : T) :
    set M st i x = none := by
  have hp : 0 < 2 ^ K := Nat.pow_pos (by norm_num)
  show (if (st.v.length + 1) / 2 - 1 + i < st.v.length
      then some (SegmentTree.mk st.len (setLoop M (st.v.set ((st.v.length + 1) / 2 - 1 + i) x)
        ((st.v.length + 1) / 2 - 1 + i)))
      else none) = _
  rw [hlen, show (2 * 2 ^ K - 1 + 1) / 2 = 2 ^ K from by omega, if_neg (by omega)]

lemma setLoop_set_leaf (st : SegmentTree T) (K : Nat) (hlen : st.v.length = 2 * 2 ^ K - 1)
    (i : Nat) (hi : i < 2 ^ K) (x : T) :
    (setLoop M (st.v.set (2 ^ K - 1 + i) x) (2 ^ K - 1 + i)).getD (2 ^ K - 1 + i) M.mempty
      = x := by
  have hp : 0 < 2 ^ K := Nat.pow_pos (by norm_num)
  rw [setLoop_getD_ge _ _ _ _ (by omega), getD_set_self _ _ _ _ (by rw [hlen]; omega)]

lemma setLoop_set_frame (st : SegmentTree T) (K : Nat) (_hlen : st.v.length = 2 * 2 ^ K - 1)
    (i : Nat) (hi : i < 2 ^ K) (x : T) (j : Nat) (hj : j ≠ i) :
    (setLoop M (st.v.set (2 ^ K - 1 + i) x) (2 ^ K - 1 + i)).getD (2 ^ K - 1 + j) M.mempty
      = st.v.getD (2 ^ K - 1 + j) M.mempty := by
  have hp : 0 < 2 ^ K := Nat.pow_pos (by norm_num)
  rw [setLoop_getD_ge _ _ _ _ (by omega), getD_set_ne _ _ _ (by omega)]

lemma set_consistent_of (st : SegmentTree T) (K : Nat) (hlen : st.v.length = 2 * 2 ^ K - 1)
    (i : Nat) (_hi : i < 2 ^ K) (x : T) (hcons : consistent M st.v) :
    consistent M (setLoop M (st.v.set (2 ^ K - 1 + i) x) (2 ^ K - 1 + i)) := by
  have hp : 0 < 2 ^ K := Nat.pow_pos (by norm_num)
  intro ix hix
  apply setLoop_consistent
  · intro ix2 hix2 hanc
    rw [List.length_set] at hix2
    have hne0 : 2 ^ K - 1 + i ≠ ix2 := by rw [hlen] at hix2; omega
    have hne1 : 2 ^ K - 1 + i ≠ ix2 * 2 + 1 := by
      intro he
      apply hanc
      rw [isAnc_unfold _ _ (by omega)]
      left
      omega
    have hne2 : 2 ^ K - 1 + i ≠ ix2 * 2 + 2 := by
      intro he
      apply hanc
      rw [isAnc_unfold _ _ (by omega)]
      left
      omega
    unfold consAt
    rw [getD_set_ne _ _ _ hne0, getD_set_ne _ _ _ hne1, getD_set_ne _ _ _ hne2]
    exact hcons ix2 hix2
  · exact hix

lemma set_preserves_inv (st st' : SegmentTree T) (K : Nat)
    (hlen : st.v.length = 2 * 2 ^ K - 1) (hcons : consistent M st.v) (i : Nat) (x : T)
    (h : set M st i x = some st') :
    st'.len = st.len ∧ st'.v.length = st.v.length ∧ consistent M st'.v := by
  have hi : i < 2 ^ K := by
    by_contra hge
    rw [set_eq_none st K hlen i (by omega) x] at h
    exact Option.noConfusion h
  rw [set_eq_some st K hlen i hi x] at h
  injection h with h
  subst h
  exact ⟨rfl, by rw [setLoop_length, List.length_set],
    set_consistent_of st K hlen i hi x hcons⟩

lemma mappend_some_imp (st st' : SegmentTree T) (i : Nat) (x : T)
    (h : mappend M st i x = some st') :
    ∃ p, get M st i = some p ∧ set M st i (M.mappend p x) = some st' := by
  unfold mappend at h
  cases hg : get M st i with
  | none => rw [hg] at h; exact Option.noConfusion h
  | some p => rw [hg] at h; exact ⟨p, rfl, h⟩

lemma reachable_inv (st : SegmentTree T) (h : Reachable M st) :
    st.v.length = 2 * st.len.nextPowerOfTwo - 1 ∧ consistent M st.v := by
  induction h with
  | mk_new n => exact ⟨init_v_length n [], init_consistent n []⟩
  | mk_slice s => exact ⟨init_v_length s.length s, init_consistent s.length s⟩
  | mk_set st st' i x hr hset ih =>
    obtain ⟨K, hK⟩ := Nat.isPowerOfTwo_nextPowerOfTwo st.len
    have hlen : st.v.length = 2 * 2 ^ K - 1 := by rw [ih.1, hK]
    obtain ⟨hl, hvl, hc⟩ := set_preserves_inv st st' K hlen ih.2 i x hset
    refine ⟨?_, hc⟩
    rw [hvl, hl, ih.1]
  | mk_app st st' i x hr hset ih =>
    obtain ⟨K, hK⟩ := Nat.isPowerOfTwo_nextPowerOfTwo st.len
    have hlen : st.v.length = 2 * 2 ^ K - 1 := by rw [ih.1, hK]
    obtain ⟨p, hget, hset2⟩ := mappend_some_imp st st' i x hset
    obtain ⟨hl, hvl, hc⟩ := set_preserves_inv st st' K hlen ih.2 i _ hset2
    refine ⟨?_, hc⟩
    rw [hvl, hl, ih.1]

end SegmentTree

namespace SegmentTree

variable {T : Type} {M : MonoidOps T}

lemma reachableLt_reachable (st : SegmentTree T) (h : ReachableLt M st) : Reachable M st := by
  induction h with
  | mk_new n => exact Reachable.mk_new n
  | mk_slice s => exact Reachable.mk_slice s
  | mk_set st st' i x hr hi hset ih => exact Reachable.mk_set st st' i x ih hset
  | mk_app st st' i x hr hi hset ih => exact Reachable.mk_app st st' i x ih hset

lemma reachableLt_pad (st : SegmentTree T) (h : ReachableLt M st) :
    ∀ j, st.len ≤ j →
      st.v.getD (st.len.nextPowerOfTwo - 1 + j) M.mempty = M.mempty := by
  induction h with
  | mk_new n =>
    intro j hj
    have hj2 : n ≤ j := hj
    have := init_getD_leaf (M := M) n [] (by simp) j
    simpa using this
  | mk_slice s =>
    intro j hj
    have hj2 : s.length ≤ j := hj
    have := init_getD_leaf (M := M) s.length s (nextPowerOfTwo_ge s.length) j
    rw [if_neg (by omega)] at this
    exact this
  | mk_set st st' i x hr hilen hset ih =>
    obtain ⟨K, hK⟩ := Nat.isPowerOfTwo_nextPowerOfTwo st.len
    have hshape := reachable_inv st (reachableLt_reachable st hr)
    have hlen : st.v.length = 2 * 2 ^ K - 1 := by rw [hshape.1, hK]
    have hnpt := nextPowerOfTwo_ge st.len
    have hi : i < 2 ^ K := by rw [hK] at hnpt; omega
    rw [set_eq_some st K hlen i hi x] at hset
    injection hset with hset
    subst hset
    intro j hj
    have hj2 : st.len ≤ j := hj
    show (setLoop M (st.v.set (2 ^ K - 1 + i) x) (2 ^ K - 1 + i)).getD
        (st.len.nextPowerOfTwo - 1 + j) M.mempty = M.mempty
    rw [hK, setLoop_set_frame st K hlen i hi x j (by omega)]
    have := ih j hj2
    rw [hK] at this
    exact this
  | mk_app st st' i x hr hilen hset ih =>
    obtain ⟨K, hK⟩ := Nat.isPowerOfTwo_nextPowerOfTwo st.len
    have hshape := reachable_inv st (reachableLt_reachable st hr)
    have hlen : st.v.length = 2 * 2 ^ K - 1 := by rw [hshape.1, hK]
    have hnpt := nextPowerOfTwo_ge st.len
    have hi : i < 2 ^ K := by rw [hK] at hnpt; omega
    obtain ⟨p, hget, hset2⟩ := mappend_some_imp st st' i x hset
    rw [set_eq_some st K hlen i hi _] at hset2
    injection hset2 with hset2
    subst hset2
    intro j hj
    have hj2 : st.len ≤ j := hj
    show (setLoop M (st.v.set (2 ^ K - 1 + i) (M.mappend p x)) (2 ^ K - 1 + i)).getD
        (st.len.nextPowerOfTwo - 1 + j) M.mempty = M.mempty
    rw [hK, setLoop_set_frame st K hlen i hi _ j (by omega)]
    have := ih j hj2
    rw [hK] at this
    exact this

lemma qSafe_spec (st : SegmentTree T) (K : Nat) (hlen : st.v.length = 2 * 2 ^ K - 1) :
    ∀ (k fuel ix l r : Nat), k < fuel → l ≤ r → r ≤ 2 ^ k →
      (ix + 2) * 2 ^ k ≤ 2 * 2 ^ K →
      qSafe st fuel ix (2 ^ k) l r = true := by
  intro k
  induction k with
  | zero =>
    intro fuel ix l r hfuel hlr hr hb
    cases fuel with
    | zero => omega
    | succ fuel =>
      have h20 : (2 : Nat) ^ 0 = 1 := rfl
      have hp : 0 < 2 ^ K := Nat.pow_pos (by norm_num)
      simp only [qSafe]
      by_cases h1 : l = r
      · rw [if_pos h1]
      · rw [if_neg h1, if_pos (by rw [h20]; omega)]
        simp only [decide_eq_true_eq]
        omega
  | succ k ih =>
    intro fuel ix l r hfuel hlr hr hb
    cases fuel with
    | zero => omega
    | succ fuel =>
      have hp : 0 < 2 ^ k := Nat.pow_pos (by norm_num)
      have hpK : 0 < 2 ^ K := Nat.pow_pos (by norm_num)
      have hpow : 2 ^ (k + 1) = 2 * 2 ^ k := by rw [Nat.pow_succ]; ring
      simp only [qSafe]
      by_cases h1 : l = r
      · rw [if_pos h1]
      · rw [if_neg h1]
        by_cases h2 : r - l = 2 ^ (k + 1)
        · rw [if_pos h2]
          simp only [decide_eq_true_eq]
          have h1p : 0 < 2 ^ (k + 1) := Nat.pow_pos (by norm_num)
          have hle : ix + 2 ≤ (ix + 2) * 2 ^ (k + 1) := Nat.le_mul_of_pos_right _ h1p
          rw [hlen]
          omega
        · rw [if_neg h2]
          have hm : 2 ^ (k + 1) / 2 = 2 ^ k := by omega
          rw [hm]
          have hc1 : (ix * 2 + 1 + 2) * 2 ^ k ≤ 2 * 2 ^ K := by
            calc (ix * 2 + 1 + 2) * 2 ^ k ≤ (ix * 2 + 4) * 2 ^ k :=
                  Nat.mul_le_mul_right _ (by omega)
            _ = (ix + 2) * 2 ^ (k + 1) := by rw [hpow]; ring
            _ ≤ 2 * 2 ^ K := hb
          have hc2 : (ix * 2 + 2 + 2) * 2 ^ k ≤ 2 * 2 ^ K := by
            calc (ix * 2 + 2 + 2) * 2 ^ k = (ix + 2) * 2 ^ (k + 1) := by rw [hpow]; ring
            _ ≤ 2 * 2 ^ K := hb
          have hmaxr : max r (2 ^ k) ≤ 2 ^ (k + 1) := by
            apply Nat.max_le.mpr
            exact ⟨hr, by omega⟩
          rw [ih fuel (ix * 2 + 1) (min l (2 ^ k)) (min r (2 ^ k)) (by omega)
            (inf_le_inf_right _ hlr) (Nat.min_le_right _ _) hc1]
          rw [ih fuel (ix * 2 + 2) (max l (2 ^ k) - 2 ^ k) (max r (2 ^ k) - 2 ^ k) (by omega)
            (Nat.sub_le_sub_right (sup_le_sup_right hlr _) _) (by omega) hc2]
          rfl

end SegmentTree

section SegLemmas3

variable {T : Type}

lemma seg_singleton (xs : List T) (i : Nat) (d : T) (h : i < xs.length) :
    seg xs i (i + 1) = [xs.getD i d] := by
  unfold seg
  rw [show i + 1 - i = 1 from by omega, List.drop_eq_getElem_cons h]
  rw [getD_eq_getElem xs i d h]
  rfl

end SegLemmas3

namespace SegmentTree

variable {T : Type} {M : MonoidOps T}

lemma leavesL_getD_root (st : SegmentTree T) (K i : Nat) (hi : i < 2 ^ K) :
    (leavesL st.v M.mempty K 0).getD i M.mempty = st.v.getD (2 ^ K - 1 + i) M.mempty := by
  rw [leavesL_eq_map]
  have hlen : i < ((List.range (2 ^ K)).map
      (fun j => st.v.getD ((0 + 1) * 2 ^ K - 1 + j) M.mempty)).length := by
    simpa using hi
  rw [getD_eq_getElem _ _ _ hlen, List.get_eq_getElem, List.getElem_map, List.getElem_range]
  show st.v.getD ((0 + 1) * 2 ^ K - 1 + i) M.mempty = st.v.getD (2 ^ K - 1 + i) M.mempty
  congr 1
  omega

end SegmentTree

open SegmentTree in
/-- C1: for every finite sequence `s` over a lawful monoid and all indices
`0 <= l <= r <= len(s)`, querying the tree built by `from_slice(s)` with
`query(l, r)` returns the left-to-right fold of `s[l..r]` through `mappend`
seeded with the identity element (`mconcat (seg s l r)`). -/
theorem C1_build_query_correct {T : Type} (M : MonoidOps T) (hM : M.Lawful) (s : List T)
    (l r : Nat) (hlr : l ≤ r) (hr : r ≤ s.length) :
    query M (from_slice M s) l r = some (M.mconcat (seg s l r)) := by
  obtain ⟨K, hK⟩ := Nat.isPowerOfTwo_nextPowerOfTwo s.length
  have hp : 0 < 2 ^ K := Nat.pow_pos (by norm_num)
  have hge := nextPowerOfTwo_ge s.length
  have hlen : (init M s.length s).v.length = 2 * 2 ^ K - 1 := by
    rw [init_v_length, hK]
  show query M (init M s.length s) l r = _
  unfold query
  rw [if_pos (And.intro hlr (by rw [init_len]; exact hr))]
  rw [hlen, show (2 * 2 ^ K - 1 + 1) / 2 = 2 ^ K from by omega]
  show some (q M (init M s.length s) (2 ^ K) 0 (2 ^ K) l r) = _
  rw [q_spec hM (init M s.length s) K hlen (init_consistent s.length s) K (2 ^ K) 0 l r
    (Nat.lt_two_pow K) hlr (by omega) (by omega)]
  rw [init_leavesL s.length s K hK (by omega)]
  rw [seg_append_left s _ l r hr]

open SegmentTree in
/-- Witness for C1 at a concrete input: the sum segment tree over
`[1,2,3,4,5]` answers `query(1,4)` with the fold of the slice `[2,3,4]`. -/
theorem C1_build_query_correct_witness :
    query natSum (from_slice natSum [1, 2, 3, 4, 5]) 1 4
      = some (natSum.mconcat (seg [1, 2, 3, 4, 5] 1 4)) :=
  C1_build_query_correct natSum natSum_lawful [1, 2, 3, 4, 5] 1 4 (by decide) (by decide)

open SegmentTree in
/-- C4: `query(l, r)` fails fast (modelled: returns `none`, the image of the
Rust `assert!` panic) exactly when `l > r` or `r > len`; in particular it
never clamps the range or returns a partial aggregate for such arguments. -/
theorem C4_query_fail_fast {T : Type} (M : MonoidOps T) (st : SegmentTree T) (l r : Nat) :
    query M st l r = none ↔ (r < l ∨ st.len < r) := by
  unfold query
  by_cases h : l ≤ r ∧ r ≤ st.len
  · rw [if_pos h]
    constructor
    · intro hc
      exact Option.noConfusion hc
    · intro hc
      exact (by omega : False).elim
  · rw [if_neg h]
    constructor
    · intro _
      omega
    · intro _
      rfl

open SegmentTree in
/-- C2: for every tree reached from a constructor by any sequence of
successful `set` / `mappend` (combine_at) calls with indices `i < len`,
every internal node `ix` of the storage satisfies
`storage[ix] == mappend(storage[2*ix+1], storage[2*ix+2])`. -/
theorem C2_tree_invariant {T : Type} (M : MonoidOps T) (st : SegmentTree T)
    (h : ReachableLt M st) :
    ∀ ix, ix * 2 + 2 < st.v.length →
      st.v.getD ix M.mempty
        = M.mappend (st.v.getD (ix * 2 + 1) M.mempty) (st.v.getD (ix * 2 + 2) M.mempty) := by
  intro ix hix
  exact (reachable_inv st (reachableLt_reachable st h)).2 ix hix

open SegmentTree in
/-- Witness for C2: the root of the freshly built tree `new natSum 2`
equals the combination of its two children. -/
theorem C2_tree_invariant_witness :
    (SegmentTree.new natSum 2).v.getD 0 natSum.mempty
      = natSum.mappend ((SegmentTree.new natSum 2).v.getD 1 natSum.mempty)
        ((SegmentTree.new natSum 2).v.getD 2 natSum.mempty) :=
  C2_tree_invariant natSum (SegmentTree.new natSum 2) (ReachableLt.mk_new 2) 0
    (by
      show 0 * 2 + 2 < (init natSum 2 []).v.length
      rw [init_v_length, show Nat.nextPowerOfTwo 2 = 2 from by
        simp [Nat.nextPowerOfTwo, Nat.nextPowerOfTwo.go]]
      norm_num)

open SegmentTree in
/-- C3: on any reachable tree, for every `i < len` and value `x`,
`set(i, x)` succeeds; afterwards `get(i)` returns `x` and `get(j)` is
unchanged for every other index `j < len`. -/
theorem C3_point_update_frame {T : Type} (M : MonoidOps T) (st : SegmentTree T)
    (h : Reachable M st) (i : Nat) (hi : i < st.len) (x : T) :
    ∃ st', set M st i x = some st' ∧ get M st' i = some x ∧
      ∀ j, j < st.len → j ≠ i → get M st' j = get M st j := by
  obtain ⟨K, hK⟩ := Nat.isPowerOfTwo_nextPowerOfTwo st.len
  obtain ⟨hsh, hcons⟩ := reachable_inv st h
  have hlen : st.v.length = 2 * 2 ^ K - 1 := by rw [hsh, hK]
  have hge := nextPowerOfTwo_ge st.len
  have hi2 : i < 2 ^ K := by rw [hK] at hge; omega
  refine ⟨⟨st.len, setLoop M (st.v.set (2 ^ K - 1 + i) x) (2 ^ K - 1 + i)⟩,
    set_eq_some st K hlen i hi2 x, ?_, ?_⟩
  · have hlen2 : (SegmentTree.mk st.len
        (setLoop M (st.v.set (2 ^ K - 1 + i) x) (2 ^ K - 1 + i))).v.length
        = 2 * 2 ^ K - 1 := by
      show (setLoop M _ _).length = _
      rw [setLoop_length, List.length_set, hlen]
    rw [get_eq_some _ K hlen2 i hi2]
    show some ((setLoop M (st.v.set (2 ^ K - 1 + i) x) (2 ^ K - 1 + i)).getD
      (2 ^ K - 1 + i) M.mempty) = some x
    rw [setLoop_set_leaf st K hlen i hi2 x]
  · intro j hj hne
    have hj2 : j < 2 ^ K := by rw [hK] at hge; omega
    have hlen2 : (SegmentTree.mk st.len
        (setLoop M (st.v.set (2 ^ K - 1 + i) x) (2 ^ K - 1 + i))).v.length
        = 2 * 2 ^ K - 1 := by
      show (setLoop M _ _).length = _
      rw [setLoop_length, List.length_set, hlen]
    rw [get_eq_some _ K hlen2 j hj2, get_eq_some st K hlen j hj2]
    show some ((setLoop M (st.v.set (2 ^ K - 1 + i) x) (2 ^ K - 1 + i)).getD
      (2 ^ K - 1 + j) M.mempty) = some (st.v.getD (2 ^ K - 1 + j) M.mempty)
    rw [setLoop_set_frame st K hlen i hi2 x j hne]

open SegmentTree in
/-- Witness for C3: setting index 0 of `new natSum 2` to 7 succeeds, makes
`get 0` return 7, and leaves `get 1` unchanged. -/
theorem C3_point_update_frame_witness :
    ∃ st', set natSum (SegmentTree.new natSum 2) 0 7 = some st' ∧
      get natSum st' 0 = some 7 ∧
      ∀ j, j < (SegmentTree.new natSum 2).len → j ≠ 0 →
        get natSum st' j = get natSum (SegmentTree.new natSum 2) j :=
  C3_point_update_frame natSum (SegmentTree.new natSum 2) (Reachable.mk_new 2) 0
    (by decide) 7

open SegmentTree in
/-- C5: on any reachable tree, if `get(i)` currently returns `p` for
`i < len`, then `mappend(i, v)` (the combine_at operation) succeeds and
afterwards `get(i)` returns `mappend(p, v)` — the prior value is the left
argument, so the order is observable for non-commutative monoids. -/
theorem C5_combine_at_correct {T : Type} (M : MonoidOps T) (st : SegmentTree T)
    (h : Reachable M st) (i : Nat) (hi : i < st.len) (p : T)
    (hp : get M st i = some p) (x : T) :
    ∃ st', mappend M st i x = some st' ∧ get M st' i = some (M.mappend p x) := by
  obtain ⟨K, hK⟩ := Nat.isPowerOfTwo_nextPowerOfTwo st.len
  obtain ⟨hsh, hcons⟩ := reachable_inv st h
  have hlen : st.v.length = 2 * 2 ^ K - 1 := by rw [hsh, hK]
  have hge := nextPowerOfTwo_ge st.len
  have hi2 : i < 2 ^ K := by rw [hK] at hge; omega
  have hpval : p = st.v.getD (2 ^ K - 1 + i) M.mempty := by
    rw [get_eq_some st K hlen i hi2] at hp
    exact (Option.some.inj hp).symm
  refine ⟨⟨st.len, setLoop M (st.v.set (2 ^ K - 1 + i) (M.mappend p x)) (2 ^ K - 1 + i)⟩,
    ?_, ?_⟩
  · unfold mappend
    rw [hp]
    exact set_eq_some st K hlen i hi2 (M.mappend p x)
  · have hlen2 : (SegmentTree.mk st.len
        (setLoop M (st.v.set (2 ^ K - 1 + i) (M.mappend p x)) (2 ^ K - 1 + i))).v.length
        = 2 * 2 ^ K - 1 := by
      show (setLoop M _ _).length = _
      rw [setLoop_length, List.length_set, hlen]
    rw [get_eq_some _ K hlen2 i hi2]
    show some ((setLoop M (st.v.set (2 ^ K - 1 + i) (M.mappend p x)) (2 ^ K - 1 + i)).getD
      (2 ^ K - 1 + i) M.mempty) = some (M.mappend p x)
    rw [setLoop_set_leaf st K hlen i hi2 (M.mappend p x)]

open SegmentTree in
/-- Witness for C5: on `new natSum 2`, position 0 holds 0; `mappend(0, 5)`
succeeds and `get 0` then returns `mappend 0 5`. -/
theorem C5_combine_at_correct_witness :
    ∃ st', mappend natSum (SegmentTree.new natSum 2) 0 5 = some st' ∧
      get natSum st' 0 = some (natSum.mappend 0 5) :=
  C5_combine_at_correct natSum (SegmentTree.new natSum 2) (Reachable.mk_new 2) 0 (by decide) 0
    (by simp [SegmentTree.get, SegmentTree.new, SegmentTree.init, SegmentTree.writeLeaves,
      SegmentTree.buildLoop, SegmentTree.buildLevel, Nat.nextPowerOfTwo,
      Nat.nextPowerOfTwo.go, natSum]) 5

open SegmentTree in
/-- Counterexample to C6: on `new natSum 5` (logical length 5, padded
capacity 8), index `5 ≥ len` does NOT fail: `get` silently returns the
identity, and `set` / `mappend` (combine_at) silently succeed, operating
on a padding slot. -/
theorem C6_counterexample :
    get natSum (SegmentTree.new natSum 5) 5 = some natSum.mempty ∧
    (SegmentTree.set natSum (SegmentTree.new natSum 5) 5 1).isSome = true ∧
    (mappend natSum (SegmentTree.new natSum 5) 5 1).isSome = true := by
  refine ⟨?_, ?_, ?_⟩ <;>
    simp [SegmentTree.get, SegmentTree.set, SegmentTree.mappend, SegmentTree.setLoop,
      SegmentTree.new, SegmentTree.init, SegmentTree.writeLeaves, SegmentTree.buildLoop,
      SegmentTree.buildLevel, Nat.nextPowerOfTwo, Nat.nextPowerOfTwo.go, natSum]

open SegmentTree in
/-- C6 as amended: on any reachable tree, `get` / `set` / `mappend`
(combine_at) abort (panic, modelled as `none`) exactly when the index
reaches the padded capacity `next_power_of_two(len)`; indices in
`[len, next_power_of_two(len))` are silently accepted.  An abort commits
no mutation (the operations return `none` without producing a tree). -/
theorem C6_bounds_amended {T : Type} (M : MonoidOps T) (st : SegmentTree T)
    (h : Reachable M st) (i : Nat) (x : T) :
    (get M st i = none ↔ st.len.nextPowerOfTwo ≤ i) ∧
    (SegmentTree.set M st i x = none ↔ st.len.nextPowerOfTwo ≤ i) ∧
    (mappend M st i x = none ↔ st.len.nextPowerOfTwo ≤ i) := by
  obtain ⟨K, hK⟩ := Nat.isPowerOfTwo_nextPowerOfTwo st.len
  obtain ⟨hsh, _⟩ := reachable_inv st h
  have hlen : st.v.length = 2 * 2 ^ K - 1 := by rw [hsh, hK]
  rw [hK]
  by_cases hi : i < 2 ^ K
  · refine ⟨?_, ?_, ?_⟩
    · rw [get_eq_some st K hlen i hi]
      constructor
      · intro hc
        exact Option.noConfusion hc
      · intro hc
        exact ((by omega : False)).elim
    · rw [set_eq_some st K hlen i hi x]
      constructor
      · intro hc
        exact Option.noConfusion hc
      · intro hc
        exact ((by omega : False)).elim
    · unfold mappend
      rw [get_eq_some st K hlen i hi]
      show SegmentTree.set M st i (M.mappend (st.v.getD (2 ^ K - 1 + i) M.mempty) x) = none ↔ _
      rw [set_eq_some st K hlen i hi _]
      constructor
      · intro hc
        exact Option.noConfusion hc
      · intro hc
        exact ((by omega : False)).elim
  · have hge : 2 ^ K ≤ i := by omega
    refine ⟨?_, ?_, ?_⟩
    · rw [get_eq_none st K hlen i hge]
      simp [hge]
    · rw [set_eq_none st K hlen i hge x]
      simp [hge]
    · unfold mappend
      rw [get_eq_none st K hlen i hge]
      simp [hge]

open SegmentTree in
/-- Witness for the amended C6 at `new natSum 5` and index 9 (beyond the
padded capacity 8). -/
theorem C6_bounds_amended_witness :
    (get natSum (SegmentTree.new natSum 5) 9 = none ↔
      (SegmentTree.new natSum 5).len.nextPowerOfTwo ≤ 9) ∧
    (SegmentTree.set natSum (SegmentTree.new natSum 5) 9 1 = none ↔
      (SegmentTree.new natSum 5).len.nextPowerOfTwo ≤ 9) ∧
    (mappend natSum (SegmentTree.new natSum 5) 9 1 = none ↔
      (SegmentTree.new natSum 5).len.nextPowerOfTwo ≤ 9) :=
  C6_bounds_amended natSum (SegmentTree.new natSum 5) (Reachable.mk_new 5) 9 1

open SegmentTree in
/-- Counterexample to C7: `new natSum 5` has padded capacity 8, so storage
slot 12 = 8 - 1 + 5 is the padding leaf of logical position `5 ≥ len`.
The public call `set(5, 1)` succeeds and writes 1 (not the identity 0)
into that padding leaf. -/
theorem C7_counterexample :
    Option.map (fun t => t.v.getD 12 natSum.mempty)
      (SegmentTree.set natSum (SegmentTree.new natSum 5) 5 1) = some 1 ∧
    (1 : Nat) ≠ natSum.mempty := by
  constructor
  · simp [SegmentTree.set, SegmentTree.setLoop, SegmentTree.new, SegmentTree.init,
      SegmentTree.writeLeaves, SegmentTree.buildLoop, SegmentTree.buildLevel,
      Nat.nextPowerOfTwo, Nat.nextPowerOfTwo.go, natSum]
  · simp [natSum]

open SegmentTree in
/-- C7 as amended: as long as every mutating call respects the documented
contract `i < len`, the padding leaves (logical positions `>= len`) always
hold the identity value. -/
theorem C7_padding_amended {T : Type} (M : MonoidOps T) (st : SegmentTree T)
    (h : ReachableLt M st) (j : Nat) (hj : st.len ≤ j) :
    st.v.getD (st.len.nextPowerOfTwo - 1 + j) M.mempty = M.mempty :=
  reachableLt_pad st h j hj

open SegmentTree in
/-- Witness for the amended C7 at `new natSum 5`, padding position 6. -/
theorem C7_padding_amended_witness :
    (SegmentTree.new natSum 5).v.getD
      ((SegmentTree.new natSum 5).len.nextPowerOfTwo - 1 + 6) natSum.mempty
      = natSum.mempty :=
  C7_padding_amended natSum (SegmentTree.new natSum 5) (ReachableLt.mk_new 5) 6 (by decide)

open SegmentTree in
/-- C8: on any reachable tree over a lawful monoid, `get(i)` returns the
same value as `query(i, i+1)` for every `i < len`. -/
theorem C8_get_eq_query {T : Type} (M : MonoidOps T) (hM : M.Lawful) (st : SegmentTree T)
    (h : Reachable M st) (i : Nat) (hi : i < st.len) :
    get M st i = query M st i (i + 1) := by
  obtain ⟨K, hK⟩ := Nat.isPowerOfTwo_nextPowerOfTwo st.len
  obtain ⟨hsh, hcons⟩ := reachable_inv st h
  have hp : 0 < 2 ^ K := Nat.pow_pos (by norm_num)
  have hlen : st.v.length = 2 * 2 ^ K - 1 := by rw [hsh, hK]
  have hge := nextPowerOfTwo_ge st.len
  have hi2 : i < 2 ^ K := by rw [hK] at hge; omega
  rw [get_eq_some st K hlen i hi2]
  unfold query
  rw [if_pos (And.intro (by omega) (by omega))]
  rw [hlen, show (2 * 2 ^ K - 1 + 1) / 2 = 2 ^ K from by omega]
  show _ = some (q M st (2 ^ K) 0 (2 ^ K) i (i + 1))
  rw [q_spec hM st K hlen hcons K (2 ^ K) 0 i (i + 1) (Nat.lt_two_pow K) (by omega)
    (by omega) (by omega)]
  rw [seg_singleton (leavesL st.v M.mempty K 0) i M.mempty
    (by rw [leavesL_length]; omega)]
  rw [leavesL_getD_root st K i hi2, MonoidOps.mconcat_singleton hM]

open SegmentTree in
/-- Witness for C8 at `new natSum 2`, index 1. -/
theorem C8_get_eq_query_witness :
    get natSum (SegmentTree.new natSum 2) 1
      = query natSum (SegmentTree.new natSum 2) 1 2 :=
  C8_get_eq_query natSum natSum_lawful (SegmentTree.new natSum 2) (Reachable.mk_new 2) 1
    (by decide)

open SegmentTree in
/-- Counterexample to C9: on the empty tree (`len = 0`), `query(1, 1)` does
not return the identity — the assertion `r <= len` fails (a panic, `none`),
because the claim quantifies over every index `i`, including `i > len`. -/
theorem C9_counterexample :
    query natSum (SegmentTree.new natSum 0) 1 1 ≠ some natSum.mempty := by
  simp [SegmentTree.query, SegmentTree.new, SegmentTree.init]

open SegmentTree in
/-- C9 as amended: for every tree and every index `i <= len`,
`query(i, i)` returns the identity value. -/
theorem C9_empty_range_amended {T : Type} (M : MonoidOps T) (st : SegmentTree T) (i : Nat)
    (hi : i ≤ st.len) :
    query M st i i = some M.mempty := by
  unfold query
  rw [if_pos (And.intro (le_refl i) hi)]
  show some (q M st ((st.v.length + 1) / 2) 0 ((st.v.length + 1) / 2) i i) = _
  congr 1
  generalize (st.v.length + 1) / 2 = n
  cases n with
  | zero => rfl
  | succ m =>
    simp only [q]
    simp

open SegmentTree in
/-- Witness for the amended C9 at the empty tree with `i = 0`. -/
theorem C9_empty_range_amended_witness :
    query natSum (SegmentTree.new natSum 0) 0 0 = some natSum.mempty :=
  C9_empty_range_amended natSum (SegmentTree.new natSum 0) 0 (by decide)

open SegmentTree in
/-- C10: for every tree built by the constructors (`new M len = init M len []`,
`from_slice M s = init M s.length s`) and all arguments with `l <= r <= len`,
the recursive helper `q` — started exactly as `query` starts it — terminates
(the fuel `n` passed by `query` is never exhausted, since `qSafe` returns
`false` on fuel 0) and every storage read it performs is in bounds. -/
theorem C10_query_safe {T : Type} (M : MonoidOps T) (len : Nat) (s : List T) (l r : Nat)
    (hlr : l ≤ r) (hr : r ≤ len) :
    qSafe (init M len s) (((init M len s).v.length + 1) / 2) 0
      (((init M len s).v.length + 1) / 2) l r = true := by
  obtain ⟨K, hK⟩ := Nat.isPowerOfTwo_nextPowerOfTwo len
  have hp : 0 < 2 ^ K := Nat.pow_pos (by norm_num)
  have hge := nextPowerOfTwo_ge len
  have hlen : (init M len s).v.length = 2 * 2 ^ K - 1 := by rw [init_v_length, hK]
  rw [hlen, show (2 * 2 ^ K - 1 + 1) / 2 = 2 ^ K from by omega]
  exact qSafe_spec (init M len s) K hlen K (2 ^ K) 0 l r (Nat.lt_two_pow K) hlr
    (by rw [hK] at hge; omega) (by omega)

open SegmentTree in
/-- Witness for C10 on a concrete mixed tree (`len = 5`, three initial
values) and the range `[1, 4)`. -/
theorem C10_query_safe_witness :
    qSafe (init natSum 5 [1, 2, 3]) (((init natSum 5 [1, 2, 3]).v.length + 1) / 2) 0
      (((init natSum 5 [1, 2, 3]).v.length + 1) / 2) 1 4 = true :=
  C10_query_safe natSum 5 [1, 2, 3] 1 4 (by decide) (by decide)
